import Mathlib

/-!
# Verification of the `AstarteAggregate` derive macro

Shallow embedding of `astarte-device-sdk-derive/src/lib.rs`: the attribute
parser and merger (`AggregateAttributes`), the syntax-level helpers
(`parse_name_value_attrs`, `parse_str_lit`, `parse_bool_lit`,
`parse_attribute_list`, `parse_struct_fields`), the derive resolver
(`AggregateDerive::parse`, `AggregateDerive::add_trait_bound`) and the runtime
semantics of the generated `astarte_aggregate` encode function
(`AggregateDerive::quote`).

`syn` token spans are abstracted as natural numbers; a `syn::Error` is a span
together with its message string, which is how the source distinguishes its
error conditions.
-/

namespace Astarte

/-- Abstract source span of a token (stands for `proc_macro2::Span`). -/
abbrev Span := Nat

/-- A `syn::Error`: the span it was constructed at plus its message. -/
structure SynError where
  span : Span
  msg : String
deriving Repr, DecidableEq

/-- The fragment of `syn::Expr` the derive macro inspects: a string literal, a
boolean literal, or any other expression (only its span is relevant there). -/
inductive Expr where
  | litStr (s : String) (span : Span)
  | litBool (b : Bool) (span : Span)
  | otherExpr (span : Span)
deriving Repr, DecidableEq

/-- `Spanned::span` on the embedded expressions. -/
def Expr.span : Expr → Span
  | .litStr _ sp => sp
  | .litBool _ sp => sp
  | .otherExpr sp => sp

/-- A `syn::MetaNameValue`: a path on the left of `=`, a value expression on
the right. The path is kept as its list of segments so that
`path.get_ident()` (exactly one segment) can fail. -/
structure MetaNameValue where
  path : List String
  value : Expr
  span : Span
deriving Repr, DecidableEq

/-- `syn::Path::get_ident`: succeeds exactly when the path is one bare
identifier segment. -/
def getIdent : List String → Option String
  | [s] => some s
  | _ => none

/-- The raw token stream of one configuration block, as seen by
`Punctuated::<MetaNameValue, Token![,]>::parse_terminated`: either the
tokenizer fails (carrying its `syn::Error`) or it yields the comma-separated
`name = value` pairs. -/
inductive ConfigBlock where
  | malformed (e : SynError)
  | pairs (vs : List MetaNameValue)
deriving Repr, DecidableEq

/-- Drop every entry with the given key (helper for `hmInsert`). -/
def removeKey : List (String × α) → String → List (String × α)
  | [], _ => []
  | (k₀, v) :: m, k => if k₀ = k then removeKey m k else (k₀, v) :: removeKey m k

/-- `HashMap::insert` / `FromIterator` on the string-keyed maps the macro
builds: a later insert of an existing key overwrites the earlier entry. -/
def hmInsert (m : List (String × α)) (k : String) (v : α) : List (String × α) :=
  removeKey m k ++ [(k, v)]

/-- `HashMap::get`-style lookup on the embedded map. -/
def hmFind : List (String × α) → String → Option α
  | [], _ => none
  | (k₀, v) :: m, k => if k₀ = k then some v else hmFind m k

/-- `collect::<Result<_, _>>()`: succeed with the list of values, or fail with
the first error encountered. -/
def collectExcepts : List (Except SynError α) → Except SynError (List α)
  | [] => .ok []
  | .error e :: _ => .error e
  | .ok a :: rest => (collectExcepts rest).map (a :: ·)

/-- `parse_name_value_attrs`: parse the content of a `syn::MetaList` as a list
of `syn::MetaNameValue` and collect it into a `HashMap<String, Expr>`, failing
on a key that is not a bare identifier. -/
def parse_name_value_attrs (input : ConfigBlock) : Except SynError (List (String × Expr)) :=
  match input with
  | .malformed e => .error e
  | .pairs vs => do
    let l ← collectExcepts (vs.map fun v =>
      match getIdent v.path with
      | some i => .ok (i, v.value)
      | none => .error ⟨v.span, "expected an identifier like `rename_all`"⟩)
    .ok (l.foldl (fun m p => hmInsert m p.1 p.2) [])

/-- `parse_str_lit`: a `syn::Lit::Str` yields its `String`; anything else is a
`syn::Error` at the expression's span. -/
def parse_str_lit (expr : Expr) : Except SynError String :=
  match expr with
  | .litStr s _ => .ok s
  | _ => .error ⟨expr.span, "expression must be a string literal"⟩

/-- `parse_bool_lit`: a `syn::Lit::Bool` yields its `bool`; anything else is a
`syn::Error` at the expression's span. -/
def parse_bool_lit (expr : Expr) : Except SynError Bool :=
  match expr with
  | .litBool b _ => .ok b
  | _ => .error ⟨expr.span, "expression must be a bool literal"⟩

/-- Modelled from the spec: `RenameRule` lives in `case.rs`, which is not part
of the visible sources. The spec fixes "a fixed set of naming-convention
transforms (e.g., camel-case, kebab-case, pascal-case, snake-case, unchanged)
with a defined default (unchanged) when no configuration is given". -/
inductive RenameRule where
  | identity
  | camelCase
  | pascalCase
  | snakeCase
  | kebabCase
deriving Repr, DecidableEq

/-- Modelled from the spec: the supported rule-name strings accepted by
`RenameRule::from_str` in the missing `case.rs`, per the spec's configuration
grammar (`rename_all = "<rule-name>"`, e.g. `"camelCase"`). -/
def RenameRule.from_str (s : String) : Option RenameRule :=
  match s with
  | "camelCase" => some .camelCase
  | "PascalCase" => some .pascalCase
  | "snake_case" => some .snakeCase
  | "kebab-case" => some .kebabCase
  | _ => none

/-- Modelled from the spec: word splitting for the rename engine in the
missing `case.rs` — "splitting the input name on its own internal word
boundaries (underscore or case-change)". Segments are lowercased. -/
def splitWordsAux : List Char → List Char → List (List Char)
  | [], cur => [cur.reverse]
  | c :: rest, cur =>
    if c = '_' then cur.reverse :: splitWordsAux rest []
    else if c.isUpper ∧ cur ≠ [] then cur.reverse :: splitWordsAux rest [c.toLower]
    else splitWordsAux rest (c.toLower :: cur)

/-- Word segments of an identifier, empty segments dropped. -/
def splitWords (s : String) : List String :=
  ((splitWordsAux s.data []).filter fun w => w ≠ []).map List.asString

/-- Capitalize the first character of a word. -/
def capitalize (w : String) : String :=
  match w.data with
  | [] => ""
  | c :: cs => List.asString (c.toUpper :: cs)

/-- Modelled from the spec: `RenameRule::apply_to_field` of the missing
`case.rs` — "rejoining per the target convention"; the identity (unchanged)
rule returns the name as written. -/
def RenameRule.apply_to_field : RenameRule → String → String
  | .identity, s => s
  | .snakeCase, s => String.intercalate "_" (splitWords s)
  | .kebabCase, s => String.intercalate "-" (splitWords s)
  | .camelCase, s =>
    match splitWords s with
    | [] => ""
    | w :: ws => w ++ String.join (ws.map capitalize)
  | .pascalCase, s => String.join ((splitWords s).map capitalize)

/-- `AggregateAttributes`: the structured configuration of the
`#[astarte_aggregate(..)]` attribute. -/
structure AggregateAttributes where
  rename_all : Option RenameRule
deriving Repr, DecidableEq

/-- `Default for AggregateAttributes` (`#[derive(Default)]`). -/
def AggregateAttributes.default : AggregateAttributes :=
  { rename_all := none }

/-- `AggregateAttributes::merge`: the other struct's explicit values override
`self`'s (`other.rename_all.or(self.rename_all)`). -/
def AggregateAttributes.merge (self other : AggregateAttributes) : AggregateAttributes :=
  { rename_all := other.rename_all.or self.rename_all }

/-- `impl Parse for AggregateAttributes`: build the name-value map, take out
`rename_all`, require a string literal naming a supported rule. -/
def AggregateAttributes.parse (input : ConfigBlock) : Except SynError AggregateAttributes := do
  let vars ← parse_name_value_attrs input
  match hmFind vars "rename_all" with
  | none => .ok { rename_all := none }
  | some expr =>
    match parse_str_lit expr with
    | .error e => .error e
    | .ok rename =>
      match RenameRule.from_str rename with
      | some r => .ok { rename_all := some r }
      | none => .error ⟨expr.span, "invalid rename rule"⟩

/-- The fragment of `syn::Meta` inspected by `parse_attribute_list`: a bare
path, a `name = value`, or a list `name(tokens)`. -/
inductive Meta where
  | metaPath (p : List String)
  | nameValue (p : List String) (value : Expr) (span : Span)
  | metaList (p : List String) (tokens : ConfigBlock)
deriving Repr, DecidableEq

/-- `Attribute::path()`: the path of the attribute's meta. -/
def Meta.pathOf : Meta → List String
  | .metaPath p => p
  | .nameValue p _ _ => p
  | .metaList p _ => p

/-- A `syn::Attribute` as far as the macro looks at it. -/
structure Attribute where
  meta : Meta
deriving Repr, DecidableEq

/-- `Attribute::path()`. -/
def Attribute.path (a : Attribute) : List String :=
  a.meta.pathOf

/-- `parse_attribute_list::<AggregateAttributes>`: skip attributes with
another name and bare-path forms, reject the `name = value` form, and parse
the tokens of the list form. -/
def parse_attribute_list (attr : Attribute) (name : String) :
    Option (Except SynError AggregateAttributes) :=
  let is_attr := ((getIdent attr.path).filter fun i => i = name).isSome
  if ¬ is_attr then none
  else
    match attr.meta with
    | .metaPath _ => none
    | .nameValue _ _ sp => some (.error ⟨sp, "cannot be used as a named value"⟩)
    | .metaList _ tokens => some (AggregateAttributes.parse tokens)

/-- The fragment of `syn::GenericParam` relevant to `add_trait_bound`: a type
parameter carries its bound list; lifetimes and consts carry none. -/
inductive GenericParam where
  | lifetimeP (name : String)
  | typeP (name : String) (bounds : List String)
  | constP (name : String)
deriving Repr, DecidableEq

/-- The trait bound pushed by `add_trait_bound` (as its source text). -/
def tryIntoAstarteBound : String :=
  "std::convert::TryInto<astarte_device_sdk::types::AstarteType, Error = astarte_device_sdk::error::Error>"

/-- `AggregateDerive::add_trait_bound`: push the `TryInto` bound on every type
parameter; leave lifetime and const parameters untouched. -/
def add_trait_bound (generics : List GenericParam) : List GenericParam :=
  generics.map fun param =>
    match param with
    | .typeP n bounds => .typeP n (bounds ++ [tryIntoAstarteBound])
    | p => p

/-- A field of a named struct (`syn::Field`): its identifier if any, and its
span. -/
structure Field where
  ident : Option String
  span : Span
deriving Repr, DecidableEq

/-- `syn::Fields`. -/
inductive Fields where
  | named (fields : List Field)
  | unnamed
  | unit
deriving Repr, DecidableEq

/-- `syn::Data`. -/
inductive Data where
  | structD (fields : Fields)
  | enumD
  | unionD
deriving Repr, DecidableEq

/-- `syn::DeriveInput` as far as the macro looks at it. -/
structure DeriveInput where
  attrs : List Attribute
  ident : String
  data : Data
  generics : List GenericParam
  span : Span
deriving Repr, DecidableEq

/-- `parse_struct_fields`: require a struct with named fields and return the
field identifiers in declaration order (the second message reproduces the
source's spelling). -/
def parse_struct_fields (ast : DeriveInput) : Except SynError (List String) :=
  match ast.data with
  | .structD fs =>
    match fs with
    | .named fields =>
      collectExcepts (fields.map fun f =>
        match f.ident with
        | some i => .ok i
        | none => .error ⟨f.span, "field is not an ident"⟩)
    | _ => .error ⟨ast.span, "a nemed struct is required"⟩
  | _ => .error ⟨ast.span, "a named struct is required"⟩

/-- `AggregateDerive`: the resolved derive input. -/
structure AggregateDerive where
  name : String
  attrs : AggregateAttributes
  fields : List String
  generics : List GenericParam
deriving Repr, DecidableEq

/-- `iter().reduce(|first, second| first.merge(second)).unwrap_or_default()`. -/
def reduceMerge : List AggregateAttributes → AggregateAttributes
  | [] => AggregateAttributes.default
  | a :: rest => rest.foldl AggregateAttributes.merge a

/-- `impl Parse for AggregateDerive`: collect and merge the
`astarte_aggregate` attributes, then parse the struct fields, then extend the
generics with the trait bound. -/
def AggregateDerive.parse (ast : DeriveInput) : Except SynError AggregateDerive := do
  let parsed ← collectExcepts
    (ast.attrs.filterMap fun a => parse_attribute_list a "astarte_aggregate")
  let attrs := reduceMerge parsed
  let fields ← parse_struct_fields ast
  .ok { name := ast.ident, attrs, fields, generics := add_trait_bound ast.generics }

/-- The rename rule resolved in `AggregateDerive::quote`:
`self.attrs.rename_all.unwrap_or_default()`; the default rule is the identity
(unchanged) one (spec: "a defined default (unchanged)"). -/
def AggregateDerive.rename_rule (d : AggregateDerive) : RenameRule :=
  d.attrs.rename_all.getD RenameRule.identity

/-- Runtime semantics of the body generated by `AggregateDerive::quote`: one
step per field in declaration order, each step fallibly converting the field's
value (`TryInto::try_into(self.field)?`, given here as an `Except` per field)
and inserting the renamed key; the `?` aborts on the first error. -/
def encodeSteps (rule : RenameRule) :
    List (String × Except ε α) → List (String × α) → Except ε (List (String × α))
  | [], result => .ok result
  | (n, conv) :: rest, result =>
    match conv with
    | .error e => .error e
    | .ok v => encodeSteps rule rest (hmInsert result (rule.apply_to_field n) v)

/-- The generated `astarte_aggregate` function: start from the empty map, run
every field's step, return `Ok(result)`. -/
def astarte_aggregate (rule : RenameRule) (fields : List (String × Except ε α)) :
    Except ε (List (String × α)) :=
  encodeSteps rule fields []

/-- `astarte_aggregate` of a resolved derive, with the external conversion
contract supplied per field. -/
def AggregateDerive.generated_aggregate (d : AggregateDerive)
    (conv : String → Except ε α) : Except ε (List (String × α)) :=
  astarte_aggregate d.rename_rule (d.fields.map fun n => (n, conv n))

/-- The first conversion error among the fields, in declaration order. -/
def firstErr : List (String × Except ε α) → Option ε
  | [] => none
  | (_, .error e) :: _ => some e
  | (_, .ok _) :: rest => firstErr rest

/-- The entries the generated encode produces when every conversion succeeds:
renamed key paired with the converted value, in declaration order. -/
def convMap (rule : RenameRule) (fields : List (String × Except ε α)) : List (String × α) :=
  fields.filterMap fun p =>
    match p.2 with
    | .ok v => some (rule.apply_to_field p.1, v)
    | .error _ => none

/-- The outward (renamed) key of each field, in declaration order. -/
def outwardNames (rule : RenameRule) (fields : List (String × Except ε α)) : List String :=
  fields.map fun p => rule.apply_to_field p.1

/-- The single name-value pair mapping step inside `parse_name_value_attrs`. -/
def pairKey (v : MetaNameValue) : Except SynError (String × Expr) :=
  match getIdent v.path with
  | some i => .ok (i, v.value)
  | none => .error ⟨v.span, "expected an identifier like `rename_all`"⟩

/-- `HashMap::from_iter` on the collected pairs: left fold of inserts, so a
later occurrence of a key overwrites an earlier one. -/
def toMap (l : List (String × Expr)) : List (String × Expr) :=
  l.foldl (fun m p => hmInsert m p.1 p.2) []

/-- The messages of the `syn::Error`s raised by the syntax-level helpers
(`parse_name_value_attrs`, `parse_str_lit`, `parse_bool_lit`). -/
def syntaxMsgs : List String :=
  ["expected an identifier like `rename_all`",
   "expression must be a string literal",
   "expression must be a bool literal"]

/-- A build-time error of the syntax (tokenization / literal-kind) family, as
distinguished by its message. -/
def isSyntaxErr (e : SynError) : Prop :=
  e.msg ∈ syntaxMsgs

/-- The two (differently spelled) messages of the shape error raised by
`parse_struct_fields` on a declaration that is not a named-field struct. -/
def isShapeErr (e : SynError) : Prop :=
  e.msg = "a named struct is required" ∨ e.msg = "a nemed struct is required"

/-! ## Lemmas on the embedded `HashMap` operations -/

theorem hmFind_append (m₁ m₂ : List (String × α)) (k : String) :
    hmFind (m₁ ++ m₂) k = (hmFind m₁ k).or (hmFind m₂ k) := by
  induction m₁ with
  | nil => simp [hmFind]
  | cons p m ih =>
    obtain ⟨k₀, v₀⟩ := p
    by_cases h : k₀ = k <;> simp [hmFind, h, ih]

theorem hmFind_removeKey_self (m : List (String × α)) (k : String) :
    hmFind (removeKey m k) k = none := by
  induction m with
  | nil => rfl
  | cons p m ih =>
    obtain ⟨k₀, v₀⟩ := p
    by_cases h : k₀ = k <;> simp [removeKey, hmFind, h, ih]

theorem hmFind_removeKey_ne (m : List (String × α)) (k k' : String) (h : k' ≠ k) :
    hmFind (removeKey m k) k' = hmFind m k' := by
  induction m with
  | nil => rfl
  | cons p m ih =>
    obtain ⟨k₀, v₀⟩ := p
    by_cases hk : k₀ = k
    · have hne : ¬ (k = k') := fun hc => h hc.symm
      simp [removeKey, hmFind, hk, hne, ih]
    · by_cases hk' : k₀ = k' <;> simp [removeKey, hmFind, hk, hk', h, ih]

theorem hmFind_insert_self (m : List (String × α)) (k : String) (v : α) :
    hmFind (hmInsert m k v) k = some v := by
  rw [hmInsert, hmFind_append, hmFind_removeKey_self]
  simp [hmFind]

theorem hmFind_insert_ne (m : List (String × α)) (k k' : String) (v : α) (h : k' ≠ k) :
    hmFind (hmInsert m k v) k' = hmFind m k' := by
  rw [hmInsert, hmFind_append, hmFind_removeKey_ne m k k' h]
  have hone : hmFind [(k, v)] k' = none := by
    have : k ≠ k' := fun hc => h hc.symm
    simp [hmFind, this]
  rw [hone]
  cases hmFind m k' <;> rfl

theorem removeKey_eq_self_of_find_none (m : List (String × α)) (k : String)
    (h : hmFind m k = none) : removeKey m k = m := by
  induction m with
  | nil => rfl
  | cons p m ih =>
    obtain ⟨k₀, v₀⟩ := p
    by_cases hk : k₀ = k
    · simp [hmFind, hk] at h
    · simp only [hmFind, hk, if_false] at h
      simp [removeKey, hk, ih h]

theorem hmInsert_of_find_none (m : List (String × α)) (k : String) (v : α)
    (h : hmFind m k = none) : hmInsert m k v = m ++ [(k, v)] := by
  rw [hmInsert, removeKey_eq_self_of_find_none m k h]

/-! ## Lemmas on `collect::<Result<_, _>>` -/

theorem collectExcepts_append_bind (xs ys : List (Except SynError α)) :
    collectExcepts (xs ++ ys)
      = (collectExcepts xs).bind fun l => (collectExcepts ys).map (l ++ ·) := by
  induction xs with
  | nil =>
    simp only [List.nil_append, collectExcepts]
    cases collectExcepts ys <;> simp [Except.bind, Except.map]
  | cons x xs ih =>
    cases x with
    | error e => simp [collectExcepts, Except.bind]
    | ok a =>
      have hl : collectExcepts ((Except.ok a :: xs) ++ ys)
          = (collectExcepts (xs ++ ys)).map (a :: ·) := rfl
      have hr : collectExcepts (Except.ok a :: xs)
          = (collectExcepts xs).map (a :: ·) := rfl
      rw [hl, ih, hr]
      cases collectExcepts xs <;> cases collectExcepts ys <;>
        simp [Except.bind, Except.map]

theorem collectExcepts_ok_of_all (xs : List (Except SynError α))
    (h : ∀ x ∈ xs, ∃ a, x = .ok a) : ∃ l, collectExcepts xs = .ok l := by
  induction xs with
  | nil => exact ⟨[], rfl⟩
  | cons x xs ih =>
    obtain ⟨a, ha⟩ := h x (List.mem_cons_self x xs)
    obtain ⟨l, hl⟩ := ih fun y hy => h y (List.mem_cons_of_mem x hy)
    exact ⟨a :: l, by simp [ha, collectExcepts, hl, Except.map]⟩

theorem collectExcepts_error_elem (xs ys : List (Except SynError α)) (e : SynError) :
    ∃ e', collectExcepts (xs ++ .error e :: ys) = .error e' := by
  induction xs with
  | nil => exact ⟨e, rfl⟩
  | cons x xs ih =>
    cases x with
    | error e₀ => exact ⟨e₀, rfl⟩
    | ok a =>
      obtain ⟨e', he'⟩ := ih
      exact ⟨e', by simp [collectExcepts, he', Except.map]⟩

theorem collectExcepts_error_mem (xs : List (Except SynError α)) (e : SynError)
    (h : collectExcepts xs = .error e) : Except.error e ∈ xs := by
  induction xs with
  | nil => simp [collectExcepts] at h
  | cons x xs ih =>
    cases x with
    | error e₀ =>
      simp only [collectExcepts] at h
      cases h
      exact List.mem_cons_self _ _
    | ok a =>
      simp only [collectExcepts] at h
      cases hxs : collectExcepts xs with
      | error e' =>
        rw [hxs] at h
        cases h
        exact List.mem_cons_of_mem _ (ih hxs)
      | ok l => rw [hxs] at h; simp [Except.map] at h

/-! ## Lemmas on the semantics of the generated encode body -/

theorem encodeSteps_error (rule : RenameRule) (fields : List (String × Except ε α)) (e : ε)
    (h : firstErr fields = some e) (acc : List (String × α)) :
    encodeSteps rule fields acc = .error e := by
  induction fields generalizing acc with
  | nil => simp [firstErr] at h
  | cons p rest ih =>
    obtain ⟨n, c⟩ := p
    cases c with
    | error e₀ =>
      simp only [firstErr, Option.some.injEq] at h
      subst h
      rfl
    | ok v =>
      simp only [firstErr] at h
      exact ih h _

theorem firstErr_none_iff (fields : List (String × Except ε α)) :
    firstErr fields = none ↔ ∀ p ∈ fields, ∃ v, p.2 = .ok v := by
  induction fields with
  | nil => simp [firstErr]
  | cons p rest ih =>
    obtain ⟨n, c⟩ := p
    cases c with
    | error e => simp [firstErr]
    | ok v => simp [firstErr, ih]

theorem convMap_cons_ok (rule : RenameRule) (n : String) (v : α)
    (rest : List (String × Except ε α)) :
    convMap rule ((n, .ok v) :: rest)
      = (rule.apply_to_field n, v) :: convMap rule rest := by
  simp [convMap, List.filterMap_cons]

theorem convMap_length (rule : RenameRule) (fields : List (String × Except ε α))
    (hall : ∀ p ∈ fields, ∃ v, p.2 = .ok v) :
    (convMap rule fields).length = fields.length := by
  induction fields with
  | nil => rfl
  | cons p rest ih =>
    obtain ⟨n, c⟩ := p
    obtain ⟨v, hv⟩ := hall (n, c) (List.mem_cons_self _ _)
    cases hv
    rw [convMap_cons_ok]
    simp [ih fun q hq => hall q (List.mem_cons_of_mem _ hq)]

theorem convMap_keys (rule : RenameRule) (fields : List (String × Except ε α))
    (hall : ∀ p ∈ fields, ∃ v, p.2 = .ok v) :
    (convMap rule fields).map Prod.fst = outwardNames rule fields := by
  induction fields with
  | nil => rfl
  | cons p rest ih =>
    obtain ⟨n, c⟩ := p
    obtain ⟨v, hv⟩ := hall (n, c) (List.mem_cons_self _ _)
    cases hv
    rw [convMap_cons_ok]
    simp only [List.map_cons, outwardNames, ih fun q hq => hall q (List.mem_cons_of_mem _ hq)]

theorem mem_convMap (rule : RenameRule) (fields : List (String × Except ε α))
    (p : String × Except ε α) (hp : p ∈ fields) (v : α) (hv : p.2 = .ok v) :
    (rule.apply_to_field p.1, v) ∈ convMap rule fields :=
  List.mem_filterMap.mpr ⟨p, hp, by rw [hv]⟩

theorem hmFind_of_nodup_mem (m : List (String × α)) (hnd : (m.map Prod.fst).Nodup)
    (k : String) (v : α) (hmem : (k, v) ∈ m) : hmFind m k = some v := by
  induction m with
  | nil => cases hmem
  | cons p m ih =>
    obtain ⟨k₀, v₀⟩ := p
    rw [List.map_cons, List.nodup_cons] at hnd
    rcases List.mem_cons.mp hmem with heq | hmem'
    · injection heq with hk hv
      subst hk
      subst hv
      simp [hmFind]
    · have hne : k₀ ≠ k := by
        intro hc
        subst hc
        have hk : k₀ ∈ m.map Prod.fst := List.mem_map_of_mem Prod.fst hmem'
        exact hnd.1 hk
      simp [hmFind, hne, ih hnd.2 hmem']

theorem encodeSteps_eq_append (rule : RenameRule) (fields : List (String × Except ε α))
    (acc : List (String × α))
    (hall : ∀ p ∈ fields, ∃ v, p.2 = .ok v)
    (hnd : (outwardNames rule fields).Nodup)
    (hdisj : ∀ n ∈ outwardNames rule fields, hmFind acc n = none) :
    encodeSteps rule fields acc = .ok (acc ++ convMap rule fields) := by
  induction fields generalizing acc with
  | nil => simp [encodeSteps, convMap]
  | cons p rest ih =>
    obtain ⟨n, c⟩ := p
    obtain ⟨v, hv⟩ := hall (n, c) (List.mem_cons_self _ _)
    cases hv
    have hkey : hmFind acc (rule.apply_to_field n) = none :=
      hdisj _ (by simp [outwardNames])
    have hcons : outwardNames rule ((n, Except.ok v) :: rest)
        = rule.apply_to_field n :: outwardNames rule rest := rfl
    rw [hcons, List.nodup_cons] at hnd
    have hdisj' : ∀ n' ∈ outwardNames rule rest,
        hmFind (acc ++ [(rule.apply_to_field n, v)]) n' = none := by
      intro n' hn'
      rw [hmFind_append, hdisj n' (by rw [hcons]; exact List.mem_cons_of_mem _ hn')]
      have hne : rule.apply_to_field n ≠ n' := fun hc => hnd.1 (hc ▸ hn')
      simp [hmFind, hne]
    have hstep : encodeSteps rule ((n, Except.ok v) :: rest) acc
        = encodeSteps rule rest (hmInsert acc (rule.apply_to_field n) v) := rfl
    rw [hstep, hmInsert_of_find_none _ _ _ hkey,
      ih _ (fun q hq => hall q (List.mem_cons_of_mem _ hq)) hnd.2 hdisj',
      convMap_cons_ok, List.append_assoc]
    rfl

theorem encodeSteps_ok_exists (rule : RenameRule) (fields : List (String × Except ε α))
    (hall : ∀ p ∈ fields, ∃ v, p.2 = .ok v) (acc : List (String × α)) :
    ∃ m, encodeSteps rule fields acc = .ok m := by
  induction fields generalizing acc with
  | nil => exact ⟨acc, rfl⟩
  | cons p rest ih =>
    obtain ⟨n, c⟩ := p
    obtain ⟨v, hv⟩ := hall (n, c) (List.mem_cons_self _ _)
    cases hv
    exact ih (fun q hq => hall q (List.mem_cons_of_mem _ hq)) _

/-! ## Lemmas on the attribute-parsing pipeline -/

theorem parse_nva_eq (vs : List MetaNameValue) :
    parse_name_value_attrs (.pairs vs) = (collectExcepts (vs.map pairKey)).map toMap := by
  show (collectExcepts (vs.map pairKey)).bind (fun l => .ok (toMap l))
      = (collectExcepts (vs.map pairKey)).map toMap
  cases collectExcepts (vs.map pairKey) <;> rfl

theorem toMap_append_single (l : List (String × Expr)) (k : String) (e : Expr) :
    toMap (l ++ [(k, e)]) = hmInsert (toMap l) k e := by
  simp [toMap, List.foldl_append]

theorem pairKey_ok_of_ident (v : MetaNameValue) (i : String) (h : getIdent v.path = some i) :
    pairKey v = .ok (i, v.value) := by
  simp [pairKey, h]

theorem pairKey_error_of_no_ident (v : MetaNameValue) (h : getIdent v.path = none) :
    pairKey v = .error ⟨v.span, "expected an identifier like `rename_all`"⟩ := by
  simp [pairKey, h]

theorem collect_pairKey_ok (vs : List MetaNameValue)
    (h : ∀ v ∈ vs, (getIdent v.path).isSome) :
    ∃ l, collectExcepts (vs.map pairKey) = .ok l := by
  apply collectExcepts_ok_of_all
  intro x hx
  obtain ⟨v, hv, hxv⟩ := List.mem_map.mp hx
  obtain ⟨i, hi⟩ := Option.isSome_iff_exists.mp (h v hv)
  exact ⟨(i, v.value), by rw [← hxv, pairKey_ok_of_ident v i hi]⟩

theorem collect_pairKey_error (vs : List MetaNameValue) (e : SynError)
    (h : collectExcepts (vs.map pairKey) = .error e) :
    ∃ v ∈ vs, getIdent v.path = none
      ∧ e = ⟨v.span, "expected an identifier like `rename_all`"⟩ := by
  have hmem := collectExcepts_error_mem _ _ h
  obtain ⟨v, hv, hxv⟩ := List.mem_map.mp hmem
  refine ⟨v, hv, ?_⟩
  cases hi : getIdent v.path with
  | some i => rw [pairKey_ok_of_ident v i hi] at hxv; cases hxv
  | none =>
    rw [pairKey_error_of_no_ident v hi] at hxv
    injection hxv with he
    exact ⟨rfl, he.symm⟩

theorem parse_nva_append_ok (vs : List MetaNameValue) (w : MetaNameValue)
    (k : String) (e : Expr) (hw : pairKey w = .ok (k, e)) :
    parse_name_value_attrs (.pairs (vs ++ [w]))
      = (parse_name_value_attrs (.pairs vs)).map fun m => hmInsert m k e := by
  rw [parse_nva_eq, parse_nva_eq, List.map_append, collectExcepts_append_bind]
  cases h : collectExcepts (vs.map pairKey) with
  | error e' => rfl
  | ok l =>
    have h1 : collectExcepts ([w].map pairKey) = .ok [(k, e)] := by
      simp [hw, collectExcepts, Except.map]
    rw [h1]
    show Except.ok (toMap (l ++ [(k, e)])) = Except.ok (hmInsert (toMap l) k e)
    rw [toMap_append_single]

theorem aggregate_parse_bind (input : ConfigBlock) :
    AggregateAttributes.parse input
      = (parse_name_value_attrs input).bind fun vars =>
          match hmFind vars "rename_all" with
          | none => .ok { rename_all := none }
          | some expr =>
            match parse_str_lit expr with
            | .error e => .error e
            | .ok rename =>
              match RenameRule.from_str rename with
              | some r => .ok { rename_all := some r }
              | none => .error ⟨expr.span, "invalid rename rule"⟩ := rfl

theorem collectExcepts_ok_all (xs : List (Except SynError α)) (l : List α)
    (h : collectExcepts xs = .ok l) : ∀ x ∈ xs, ∃ a, x = .ok a := by
  induction xs generalizing l with
  | nil => intro x hx; cases hx
  | cons x xs ih =>
    cases x with
    | error e => simp [collectExcepts] at h
    | ok a =>
      intro y hy
      rcases List.mem_cons.mp hy with rfl | hy'
      · exact ⟨a, rfl⟩
      · simp only [collectExcepts] at h
        cases hxs : collectExcepts xs with
        | error e => rw [hxs] at h; simp [Except.map] at h
        | ok l' => exact ih l' hxs y hy'

/-! ## Lemmas on the derive resolver -/

theorem derive_parse_bind (ast : DeriveInput) :
    AggregateDerive.parse ast
      = (collectExcepts
          (ast.attrs.filterMap fun a => parse_attribute_list a "astarte_aggregate")).bind
          fun parsed => (parse_struct_fields ast).bind
            fun fields =>
              .ok { name := ast.ident, attrs := reduceMerge parsed, fields := fields,
                    generics := add_trait_bound ast.generics } := rfl

theorem merge_default_left (a : AggregateAttributes) :
    AggregateAttributes.default.merge a = a := by
  cases a with
  | mk r => cases r <;> rfl

theorem reduceMerge_eq_foldl (l : List AggregateAttributes) :
    reduceMerge l = l.foldl AggregateAttributes.merge AggregateAttributes.default := by
  cases l with
  | nil => rfl
  | cons a rest => rw [reduceMerge, List.foldl_cons, merge_default_left]

theorem aggregate_parse_of_nva_ok (input : ConfigBlock) (vars : List (String × Expr))
    (h : parse_name_value_attrs input = .ok vars) :
    AggregateAttributes.parse input
      = match hmFind vars "rename_all" with
        | none => .ok { rename_all := none }
        | some expr =>
          match parse_str_lit expr with
          | .error e => .error e
          | .ok rename =>
            match RenameRule.from_str rename with
            | some r => .ok { rename_all := some r }
            | none => .error ⟨expr.span, "invalid rename rule"⟩ := by
  rw [aggregate_parse_bind, h]
  rfl

/-- Sample configuration block `#[astarte_aggregate(rename_all = "camelCase")]`. -/
def sampleBlock : ConfigBlock :=
  .pairs [⟨["rename_all"], .litStr "camelCase" 1, 1⟩]

/-- Sample attribute carrying `sampleBlock`. -/
def sampleAttr : Attribute :=
  ⟨.metaList ["astarte_aggregate"] sampleBlock⟩

/-- Sample derive input: `struct Foo { bar_v: String }` with `sampleAttr`. -/
def sampleAst : DeriveInput :=
  ⟨[sampleAttr], "Foo", .structD (.named [⟨some "bar_v", 4⟩]), [], 0⟩

/-! ## The claims -/

/-- **C2.** Merging two `AggregateAttributes` yields the second's value for a
key the second explicitly sets and the first's value for a key the second
leaves unset; and `AggregateDerive::parse` folds the declaration's
configuration blocks left-to-right with this merge (from the default
accumulator) into the single merged configuration it resolves. -/
theorem merge_override_and_fold_spec (a b : AggregateAttributes) :
    (∀ r, b.rename_all = some r → (a.merge b).rename_all = some r)
    ∧ (b.rename_all = none → (a.merge b).rename_all = a.rename_all)
    ∧ ∀ (ast : DeriveInput) (d : AggregateDerive) (blocks : List AggregateAttributes),
        collectExcepts (ast.attrs.filterMap fun x => parse_attribute_list x "astarte_aggregate")
          = .ok blocks →
        AggregateDerive.parse ast = .ok d →
        d.attrs = blocks.foldl AggregateAttributes.merge AggregateAttributes.default := by
  refine ⟨?_, ?_, ?_⟩
  · intro r hr
    simp [AggregateAttributes.merge, hr, Option.or]
  · intro hn
    simp [AggregateAttributes.merge, hn, Option.or]
  · intro ast d blocks hc hp
    rw [derive_parse_bind, hc] at hp
    cases hf : parse_struct_fields ast with
    | error e => rw [hf] at hp; cases hp
    | ok fields =>
      rw [hf] at hp
      injection hp with hd
      subst hd
      exact reduceMerge_eq_foldl blocks

/-- Witness for C2: concrete merges and the concrete sample derive input. -/
theorem merge_override_and_fold_spec_witness :
    ((AggregateAttributes.mk (some .camelCase)).merge ⟨some .kebabCase⟩).rename_all
        = some RenameRule.kebabCase
    ∧ ((AggregateAttributes.mk (some .camelCase)).merge ⟨none⟩).rename_all
        = (AggregateAttributes.mk (some .camelCase)).rename_all
    ∧ (AggregateDerive.mk "Foo" ⟨some .camelCase⟩ ["bar_v"] []).attrs
        = ([⟨some .camelCase⟩] : List AggregateAttributes).foldl
            AggregateAttributes.merge AggregateAttributes.default :=
  ⟨(merge_override_and_fold_spec ⟨some .camelCase⟩ ⟨some .kebabCase⟩).1 _ rfl,
   (merge_override_and_fold_spec ⟨some .camelCase⟩ ⟨none⟩).2.1 rfl,
   (merge_override_and_fold_spec ⟨none⟩ ⟨none⟩).2.2 sampleAst
     ⟨"Foo", ⟨some .camelCase⟩, ["bar_v"], []⟩ [⟨some .camelCase⟩] rfl rfl⟩

/-- **C8.** When the merged configuration leaves `rename_all` unset, `quote`
resolves the default rule, which is the identity (unchanged) rule, so every
field's outward name equals its source identifier; the merge of an empty list
of configuration blocks indeed leaves `rename_all` unset. -/
theorem default_rename_identity_spec (d : AggregateDerive)
    (h : d.attrs.rename_all = none) :
    d.rename_rule = RenameRule.identity
    ∧ (∀ n, d.rename_rule.apply_to_field n = n)
    ∧ (reduceMerge []).rename_all = none := by
  have hr : d.rename_rule = .identity := by
    simp [AggregateDerive.rename_rule, h]
  exact ⟨hr, fun n => by rw [hr]; rfl, rfl⟩

/-- Witness for C8 at a concrete derive with no `rename_all` configured. -/
theorem default_rename_identity_spec_witness :
    (AggregateDerive.mk "Foo" ⟨none⟩ ["bar_v"] []).attrs.rename_all = none
    ∧ (AggregateDerive.mk "Foo" ⟨none⟩ ["bar_v"] []).rename_rule.apply_to_field "bar_v"
        = "bar_v" :=
  ⟨rfl, (default_rename_identity_spec ⟨"Foo", ⟨none⟩, ["bar_v"], []⟩ rfl).2.1 "bar_v"⟩

/-- **C7.** `add_trait_bound` keeps the generic parameters in place, extends
every type parameter's bound list with the
`TryInto<AstarteType, Error = Error>` constraint, and leaves lifetime and
const parameters unchanged; `AggregateDerive::parse` stores exactly these
extended generics in the resolved derive. -/
theorem add_trait_bound_spec (gs : List GenericParam) :
    (add_trait_bound gs).length = gs.length
    ∧ (∀ i (hi : i < gs.length) (hj : i < (add_trait_bound gs).length),
        (∀ n bs, gs.get ⟨i, hi⟩ = .typeP n bs →
          (add_trait_bound gs).get ⟨i, hj⟩ = .typeP n (bs ++ [tryIntoAstarteBound]))
        ∧ (∀ n, gs.get ⟨i, hi⟩ = .lifetimeP n →
          (add_trait_bound gs).get ⟨i, hj⟩ = .lifetimeP n)
        ∧ (∀ n, gs.get ⟨i, hi⟩ = .constP n →
          (add_trait_bound gs).get ⟨i, hj⟩ = .constP n))
    ∧ ∀ (ast : DeriveInput) (d : AggregateDerive), AggregateDerive.parse ast = .ok d →
        d.generics = add_trait_bound ast.generics := by
  refine ⟨by simp [add_trait_bound], ?_, ?_⟩
  · intro i hi hj
    have hg : (add_trait_bound gs).get ⟨i, hj⟩
        = match gs.get ⟨i, hi⟩ with
          | .typeP n bounds => .typeP n (bounds ++ [tryIntoAstarteBound])
          | p => p := by
      simp [add_trait_bound, List.getElem_map]
    refine ⟨?_, ?_, ?_⟩
    · intro n bs hbs
      rw [hg, hbs]
    · intro n hn
      rw [hg, hn]
    · intro n hn
      rw [hg, hn]
  · intro ast d hp
    rw [derive_parse_bind] at hp
    cases hc : collectExcepts
        (ast.attrs.filterMap fun a => parse_attribute_list a "astarte_aggregate") with
    | error e => rw [hc] at hp; cases hp
    | ok parsed =>
      rw [hc] at hp
      cases hf : parse_struct_fields ast with
      | error e => rw [hf] at hp; cases hp
      | ok fields =>
        rw [hf] at hp
        injection hp with hd
        subst hd
        rfl

/-- Witness for C7 on a concrete generics list with one type parameter and
one lifetime. -/
theorem add_trait_bound_spec_witness :
    (add_trait_bound [GenericParam.typeP "T" [], GenericParam.lifetimeP "a"]).get
        ⟨0, by decide⟩ = GenericParam.typeP "T" [tryIntoAstarteBound]
    ∧ (add_trait_bound [GenericParam.typeP "T" [], GenericParam.lifetimeP "a"]).get
        ⟨1, by decide⟩ = GenericParam.lifetimeP "a" := by
  have h := (add_trait_bound_spec [GenericParam.typeP "T" [], GenericParam.lifetimeP "a"]).2.1
  exact ⟨(h 0 (by decide) (by decide)).1 "T" [] rfl, (h 1 (by decide) (by decide)).2.1 "a" rfl⟩

/-- **C4.** A declaration that is not a record with named fields is rejected
by `parse_struct_fields` with the shape error, placed at the declaration's
span; `AggregateDerive::parse` never succeeds on such a declaration (so no
runtime function is ever generated for it), and as soon as the attribute
stage succeeds the overall parse fails with exactly the shape error. -/
theorem shape_error_spec (ast : DeriveInput)
    (h : ∀ fs, ast.data ≠ Data.structD (Fields.named fs)) :
    (∃ e, parse_struct_fields ast = .error e ∧ isShapeErr e ∧ e.span = ast.span)
    ∧ (∀ d, AggregateDerive.parse ast ≠ .ok d)
    ∧ ∀ blocks,
        collectExcepts (ast.attrs.filterMap fun x => parse_attribute_list x "astarte_aggregate")
          = .ok blocks →
        ∃ e, AggregateDerive.parse ast = .error e ∧ isShapeErr e := by
  have hsf : ∃ e, parse_struct_fields ast = .error e ∧ isShapeErr e ∧ e.span = ast.span := by
    cases hd : ast.data with
    | structD fs =>
      cases fs with
      | named fls => exact absurd hd (h fls)
      | unnamed =>
        exact ⟨⟨ast.span, "a nemed struct is required"⟩,
          by simp [parse_struct_fields, hd], Or.inr rfl, rfl⟩
      | unit =>
        exact ⟨⟨ast.span, "a nemed struct is required"⟩,
          by simp [parse_struct_fields, hd], Or.inr rfl, rfl⟩
    | enumD =>
      exact ⟨⟨ast.span, "a named struct is required"⟩,
        by simp [parse_struct_fields, hd], Or.inl rfl, rfl⟩
    | unionD =>
      exact ⟨⟨ast.span, "a named struct is required"⟩,
        by simp [parse_struct_fields, hd], Or.inl rfl, rfl⟩
  obtain ⟨e, he, hse, hsp⟩ := hsf
  refine ⟨⟨e, he, hse, hsp⟩, ?_, ?_⟩
  · intro d hc
    rw [derive_parse_bind] at hc
    cases hb : collectExcepts
        (ast.attrs.filterMap fun a => parse_attribute_list a "astarte_aggregate") with
    | error e' => rw [hb] at hc; cases hc
    | ok parsed => rw [hb, he] at hc; cases hc
  · intro blocks hb
    rw [derive_parse_bind, hb, he]
    exact ⟨e, rfl, hse⟩

/-- Witness for C4 on a concrete enum declaration. -/
theorem shape_error_spec_witness :
    parse_struct_fields ⟨[], "Foo", .enumD, [], 9⟩ = .error ⟨9, "a named struct is required"⟩
    ∧ ∀ d, AggregateDerive.parse ⟨[], "Foo", .enumD, [], 9⟩ ≠ .ok d :=
  ⟨rfl, (shape_error_spec ⟨[], "Foo", .enumD, [], 9⟩ fun _ hc => Data.noConfusion hc).2.1⟩

/-- **C9.** An attribute whose name differs from `astarte_aggregate`, or a
bare path-form `#[astarte_aggregate]`, is silently skipped: it is filtered
out, raises no error, and removing it from the declaration leaves the derive
resolution unchanged; the name-value form `#[astarte_aggregate = ..]` makes
the derive fail; only the list form `#[astarte_aggregate(..)]` is parsed. -/
theorem attribute_forms_spec :
    (∀ attr : Attribute, getIdent attr.path ≠ some "astarte_aggregate" →
      parse_attribute_list attr "astarte_aggregate" = none)
    ∧ (∀ p, parse_attribute_list ⟨.metaPath p⟩ "astarte_aggregate" = none)
    ∧ (∀ p e sp, getIdent p = some "astarte_aggregate" →
      parse_attribute_list ⟨.nameValue p e sp⟩ "astarte_aggregate"
        = some (.error ⟨sp, "cannot be used as a named value"⟩))
    ∧ (∀ p tks, getIdent p = some "astarte_aggregate" →
      parse_attribute_list ⟨.metaList p tks⟩ "astarte_aggregate"
        = some (AggregateAttributes.parse tks))
    ∧ (∀ attrs1 attrs2 attr i dt g sp,
      parse_attribute_list attr "astarte_aggregate" = none →
      AggregateDerive.parse ⟨attrs1 ++ attr :: attrs2, i, dt, g, sp⟩
        = AggregateDerive.parse ⟨attrs1 ++ attrs2, i, dt, g, sp⟩)
    ∧ ∀ attrs1 attrs2 p e esp i dt g sp, getIdent p = some "astarte_aggregate" →
      ∃ err, AggregateDerive.parse
          ⟨attrs1 ++ (⟨.nameValue p e esp⟩ : Attribute) :: attrs2, i, dt, g, sp⟩
        = .error err := by
  have hskip : ∀ attr : Attribute, getIdent attr.path ≠ some "astarte_aggregate" →
      parse_attribute_list attr "astarte_aggregate" = none := by
    intro attr h
    have hfa : ((getIdent attr.path).filter fun i => i = "astarte_aggregate") = none := by
      cases hg : getIdent attr.path with
      | none => rfl
      | some i =>
        by_cases hi : i = "astarte_aggregate"
        · exact absurd (hg.trans (by rw [hi])) h
        · simp [Option.filter, hi]
    simp [parse_attribute_list, hfa]
  have hpath : ∀ p, parse_attribute_list ⟨.metaPath p⟩ "astarte_aggregate" = none := by
    intro p
    by_cases hp : ((getIdent p).filter fun i => i = "astarte_aggregate").isSome
    · simp [parse_attribute_list, Attribute.path, Meta.pathOf, hp]
    · simp [parse_attribute_list, Attribute.path, Meta.pathOf, hp]
  have hnv : ∀ p e sp, getIdent p = some "astarte_aggregate" →
      parse_attribute_list ⟨.nameValue p e sp⟩ "astarte_aggregate"
        = some (.error ⟨sp, "cannot be used as a named value"⟩) := by
    intro p e sp h
    simp [parse_attribute_list, Attribute.path, Meta.pathOf, h, Option.filter]
  have hlist : ∀ p tks, getIdent p = some "astarte_aggregate" →
      parse_attribute_list ⟨.metaList p tks⟩ "astarte_aggregate"
        = some (AggregateAttributes.parse tks) := by
    intro p tks h
    simp [parse_attribute_list, Attribute.path, Meta.pathOf, h, Option.filter]
  refine ⟨hskip, hpath, hnv, hlist, ?_, ?_⟩
  · intro attrs1 attrs2 attr i dt g sp hnone
    rw [derive_parse_bind, derive_parse_bind]
    have hfm : (attrs1 ++ attr :: attrs2).filterMap
          (fun a => parse_attribute_list a "astarte_aggregate")
        = (attrs1 ++ attrs2).filterMap
          (fun a => parse_attribute_list a "astarte_aggregate") := by
      simp [List.filterMap_append, List.filterMap_cons, hnone]
    rw [hfm]
    rfl
  · intro attrs1 attrs2 p e esp i dt g sp h
    have hfm : (attrs1 ++ (⟨.nameValue p e esp⟩ : Attribute) :: attrs2).filterMap
          (fun a => parse_attribute_list a "astarte_aggregate")
        = attrs1.filterMap (fun a => parse_attribute_list a "astarte_aggregate")
          ++ Except.error ⟨esp, "cannot be used as a named value"⟩
            :: attrs2.filterMap (fun a => parse_attribute_list a "astarte_aggregate") := by
      simp [List.filterMap_append, List.filterMap_cons, hnv p e esp h]
    obtain ⟨e', he'⟩ := collectExcepts_error_elem
      (attrs1.filterMap fun a => parse_attribute_list a "astarte_aggregate")
      (attrs2.filterMap fun a => parse_attribute_list a "astarte_aggregate")
      ⟨esp, "cannot be used as a named value"⟩
    refine ⟨e', ?_⟩
    rw [derive_parse_bind, hfm, he']
    rfl

/-- Witness for C9 on concrete attributes of each form. -/
theorem attribute_forms_spec_witness :
    parse_attribute_list ⟨.metaList ["serde"] (.pairs [])⟩ "astarte_aggregate" = none
    ∧ parse_attribute_list ⟨.metaPath ["astarte_aggregate"]⟩ "astarte_aggregate" = none
    ∧ parse_attribute_list ⟨.nameValue ["astarte_aggregate"] (.litStr "x" 2) 8⟩
        "astarte_aggregate" = some (.error ⟨8, "cannot be used as a named value"⟩)
    ∧ parse_attribute_list ⟨.metaList ["astarte_aggregate"] sampleBlock⟩ "astarte_aggregate"
        = some (AggregateAttributes.parse sampleBlock) :=
  ⟨attribute_forms_spec.1 ⟨.metaList ["serde"] (.pairs [])⟩ (by decide),
   attribute_forms_spec.2.1 ["astarte_aggregate"],
   attribute_forms_spec.2.2.1 ["astarte_aggregate"] (.litStr "x" 2) 8 rfl,
   attribute_forms_spec.2.2.2.1 ["astarte_aggregate"] sampleBlock rfl⟩

/-- **C3 counterexample.** A configuration block whose only key is the
unrecognized `foo` resolves successfully (to the empty configuration): no
`UnknownOptionError` is raised, contradicting the claim that unknown keys are
a hard error. -/
theorem unknown_key_ignored_cex :
    AggregateAttributes.parse (.pairs [⟨["foo"], .litStr "bar" 3, 3⟩])
      = .ok { rename_all := none } := rfl

/-- **C3 (amended).** Unknown keys in an aggregate configuration block are
silently ignored: appending a `name = value` pair whose bare-identifier key
is not `rename_all` never changes the result of resolution (in particular it
causes no error). -/
theorem unknown_key_ignored_spec (vs : List MetaNameValue) (k : String) (e : Expr)
    (sp : Span) (hk : k ≠ "rename_all") :
    AggregateAttributes.parse (.pairs (vs ++ [⟨[k], e, sp⟩]))
      = AggregateAttributes.parse (.pairs vs) := by
  have hins := parse_nva_append_ok vs ⟨[k], e, sp⟩ k e (by simp [pairKey, getIdent])
  cases hv : parse_name_value_attrs (.pairs vs) with
  | error e' =>
    rw [hv] at hins
    simp only [Except.map] at hins
    rw [aggregate_parse_bind, aggregate_parse_bind, hins, hv]
  | ok vars =>
    rw [hv] at hins
    simp only [Except.map] at hins
    rw [aggregate_parse_of_nva_ok _ _ hins, aggregate_parse_of_nva_ok _ _ hv,
      hmFind_insert_ne vars k "rename_all" e fun hc => hk hc.symm]

/-- Witness for C3 (amended): appending `foo = "bar"` after a `rename_all`
entry leaves resolution unchanged. -/
theorem unknown_key_ignored_spec_witness :
    "foo" ≠ "rename_all"
    ∧ AggregateAttributes.parse (.pairs
        ([⟨["rename_all"], .litStr "camelCase" 1, 1⟩] ++ [⟨["foo"], .litStr "bar" 3, 3⟩]))
      = AggregateAttributes.parse (.pairs [⟨["rename_all"], .litStr "camelCase" 1, 1⟩]) :=
  ⟨by decide, unknown_key_ignored_spec [⟨["rename_all"], .litStr "camelCase" 1, 1⟩]
    "foo" (.litStr "bar" 3) 3 (by decide)⟩

/-- **C10.** A single block may repeat a key: parsing does not fail (any block
whose keys are all bare identifiers parses), the collected map holds the last
occurrence's value for the repeated key, and the claim's example block
resolves to the `snake_case` rule. -/
theorem duplicate_key_last_wins_spec (vs : List MetaNameValue) (w : MetaNameValue)
    (k : String) (e : Expr)
    (hids : ∀ v ∈ vs, (getIdent v.path).isSome) (hw : pairKey w = .ok (k, e)) :
    (∃ m, parse_name_value_attrs (.pairs vs) = .ok m)
    ∧ (∀ m, parse_name_value_attrs (.pairs (vs ++ [w])) = .ok m → hmFind m k = some e)
    ∧ AggregateAttributes.parse (.pairs
        [⟨["rename_all"], .litStr "camelCase" 1, 1⟩,
         ⟨["rename_all"], .litStr "snake_case" 2, 2⟩])
      = .ok { rename_all := some RenameRule.snakeCase } := by
  obtain ⟨l, hl⟩ := collect_pairKey_ok vs hids
  refine ⟨⟨toMap l, by rw [parse_nva_eq, hl]; rfl⟩, ?_, rfl⟩
  intro m hm
  rw [parse_nva_append_ok vs w k e hw, parse_nva_eq, hl] at hm
  injection hm with hm
  rw [← hm]
  exact hmFind_insert_self (toMap l) k e

/-- Witness for C10 on the claim's duplicated `rename_all` block. -/
theorem duplicate_key_last_wins_spec_witness :
    hmFind [("rename_all", Expr.litStr "snake_case" 2)] "rename_all"
      = some (Expr.litStr "snake_case" 2) :=
  (duplicate_key_last_wins_spec [⟨["rename_all"], .litStr "camelCase" 1, 1⟩]
      ⟨["rename_all"], .litStr "snake_case" 2, 2⟩ "rename_all" (.litStr "snake_case" 2)
      (by decide) rfl).2.1 _ rfl

/-- **C6.** When the effective `rename_all` value is a string literal that
names no supported rule, resolution fails with the invalid-rename-rule error
at the span of the offending value expression; a supported rule name is
accepted and stored in the configuration. -/
theorem invalid_rename_rule_spec (vs : List MetaNameValue) (s : String) (sp sp₂ : Span)
    (hids : ∀ v ∈ vs, (getIdent v.path).isSome) :
    (RenameRule.from_str s = none →
      AggregateAttributes.parse (.pairs (vs ++ [⟨["rename_all"], .litStr s sp, sp₂⟩]))
        = .error ⟨sp, "invalid rename rule"⟩)
    ∧ ∀ r, RenameRule.from_str s = some r →
      AggregateAttributes.parse (.pairs (vs ++ [⟨["rename_all"], .litStr s sp, sp₂⟩]))
        = .ok { rename_all := some r } := by
  obtain ⟨l, hl⟩ := collect_pairKey_ok vs hids
  have hnva : parse_name_value_attrs
        (.pairs (vs ++ [⟨["rename_all"], .litStr s sp, sp₂⟩]))
      = .ok (hmInsert (toMap l) "rename_all" (.litStr s sp)) := by
    rw [parse_nva_append_ok vs ⟨["rename_all"], .litStr s sp, sp₂⟩ "rename_all"
      (.litStr s sp) rfl, parse_nva_eq, hl]
    rfl
  have hfind := hmFind_insert_self (toMap l) "rename_all" (Expr.litStr s sp)
  constructor
  · intro hbad
    rw [aggregate_parse_of_nva_ok _ _ hnva, hfind]
    simp [parse_str_lit, hbad, Expr.span]
  · intro r hr
    rw [aggregate_parse_of_nva_ok _ _ hnva, hfind]
    simp [parse_str_lit, hr]

/-- Witness for C6: `"bogus"` is rejected at the value's span, `"camelCase"`
is accepted and stored. -/
theorem invalid_rename_rule_spec_witness :
    RenameRule.from_str "bogus" = none
    ∧ AggregateAttributes.parse (.pairs ([] ++ [⟨["rename_all"], .litStr "bogus" 7, 5⟩]))
        = .error ⟨7, "invalid rename rule"⟩
    ∧ AggregateAttributes.parse (.pairs ([] ++ [⟨["rename_all"], .litStr "camelCase" 1, 1⟩]))
        = .ok { rename_all := some RenameRule.camelCase } :=
  ⟨rfl, (invalid_rename_rule_spec [] "bogus" 7 5 (by decide)).1 rfl,
   (invalid_rename_rule_spec [] "camelCase" 1 1 (by decide)).2 RenameRule.camelCase rfl⟩

/-- **C5 counterexample.** The block `rename_all = "bogus"`: its key is a
bare identifier, its value is a string literal (the kind `rename_all`
expects), and it tokenizes as name-value pairs — yet resolution does not
produce a configuration: it fails, and with the invalid-rename-rule error,
not a syntax error. -/
theorem invalid_rule_not_syntax_cex :
    AggregateAttributes.parse (.pairs [⟨["rename_all"], .litStr "bogus" 7, 5⟩])
      = .error ⟨7, "invalid rename rule"⟩
    ∧ ¬ isSyntaxErr ⟨7, "invalid rename rule"⟩ :=
  ⟨rfl, by simp [isSyntaxErr, syntaxMsgs]⟩

/-- **C5 (amended).** Parsing a configuration block fails with a syntax error
carrying the offending span whenever the tokenizer fails, a key is not a bare
identifier, or the `rename_all` value is not the expected string literal
(likewise the boolean-literal parser for keys expecting booleans); otherwise —
provided any `rename_all` string present names a supported rule — it produces
a structured `AggregateAttributes`. -/
theorem block_syntax_spec (vs : List MetaNameValue) (e : SynError) (expr : Expr) :
    (AggregateAttributes.parse (.malformed e) = .error e)
    ∧ ((∃ v ∈ vs, getIdent v.path = none) →
        ∃ v ∈ vs, getIdent v.path = none
          ∧ AggregateAttributes.parse (.pairs vs)
              = .error ⟨v.span, "expected an identifier like `rename_all`"⟩)
    ∧ (∀ vars, parse_name_value_attrs (.pairs vs) = .ok vars →
        hmFind vars "rename_all" = some expr →
        (∀ s sp, expr ≠ .litStr s sp) →
        AggregateAttributes.parse (.pairs vs)
            = .error ⟨expr.span, "expression must be a string literal"⟩
          ∧ isSyntaxErr ⟨expr.span, "expression must be a string literal"⟩)
    ∧ (∀ vars, parse_name_value_attrs (.pairs vs) = .ok vars →
        (hmFind vars "rename_all" = none
          ∨ ∃ s sp, hmFind vars "rename_all" = some (.litStr s sp)
              ∧ (RenameRule.from_str s).isSome) →
        ∃ cfg, AggregateAttributes.parse (.pairs vs) = .ok cfg)
    ∧ (∀ b sp, parse_bool_lit (.litBool b sp) = .ok b)
    ∧ ((∀ b sp, expr ≠ .litBool b sp) →
        parse_bool_lit expr = .error ⟨expr.span, "expression must be a bool literal"⟩
          ∧ isSyntaxErr ⟨expr.span, "expression must be a bool literal"⟩) := by
  refine ⟨rfl, ?_, ?_, ?_, fun b sp => rfl, ?_⟩
  · intro hbad
    cases hcol : collectExcepts (vs.map pairKey) with
    | ok l =>
      obtain ⟨v, hv, hvnone⟩ := hbad
      obtain ⟨a, ha⟩ :=
        collectExcepts_ok_all _ l hcol (pairKey v) (List.mem_map_of_mem pairKey hv)
      rw [pairKey_error_of_no_ident v hvnone] at ha
      cases ha
    | error e' =>
      obtain ⟨v, hv, hvnone, hee⟩ := collect_pairKey_error vs e' hcol
      refine ⟨v, hv, hvnone, ?_⟩
      rw [aggregate_parse_bind, parse_nva_eq, hcol, hee]
      rfl
  · intro vars hvars hfind hne
    refine ⟨?_, by simp [isSyntaxErr, syntaxMsgs]⟩
    rw [aggregate_parse_of_nva_ok _ _ hvars, hfind]
    cases expr with
    | litStr s sp => exact absurd rfl (hne s sp)
    | litBool b sp => rfl
    | otherExpr sp => rfl
  · intro vars hvars hok
    rw [aggregate_parse_of_nva_ok _ _ hvars]
    rcases hok with hnone | ⟨s, sp, hfind, hsome⟩
    · rw [hnone]
      exact ⟨_, rfl⟩
    · rw [hfind]
      obtain ⟨r, hr⟩ := Option.isSome_iff_exists.mp hsome
      exact ⟨⟨some r⟩, by simp [parse_str_lit, hr]⟩
  · intro hne
    refine ⟨?_, by simp [isSyntaxErr, syntaxMsgs]⟩
    cases expr with
    | litBool b sp => exact absurd rfl (hne b sp)
    | litStr s sp => rfl
    | otherExpr sp => rfl

/-- Witness for C5 (amended) on concrete blocks: a tokenizer failure is
propagated, a non-identifier key is a syntax error at its span, a block with
a supported rule resolves, and the literal-kind checks behave as stated. -/
theorem block_syntax_spec_witness :
    AggregateAttributes.parse (.malformed ⟨4, "expected one of"⟩) = .error ⟨4, "expected one of"⟩
    ∧ (∃ v ∈ [(⟨["a", "b"], Expr.litStr "x" 1, 9⟩ : MetaNameValue)], getIdent v.path = none
        ∧ AggregateAttributes.parse (.pairs [⟨["a", "b"], Expr.litStr "x" 1, 9⟩])
            = .error ⟨v.span, "expected an identifier like `rename_all`"⟩)
    ∧ (∃ cfg, AggregateAttributes.parse
        (.pairs [⟨["rename_all"], .litStr "camelCase" 1, 1⟩]) = .ok cfg)
    ∧ parse_bool_lit (.litBool true 6) = .ok true
    ∧ (parse_bool_lit (.litStr "x" 6) = .error ⟨6, "expression must be a bool literal"⟩
        ∧ isSyntaxErr ⟨6, "expression must be a bool literal"⟩) :=
  ⟨(block_syntax_spec [] ⟨4, "expected one of"⟩ (.litStr "x" 6)).1,
   (block_syntax_spec [⟨["a", "b"], Expr.litStr "x" 1, 9⟩] ⟨4, "expected one of"⟩
      (.litStr "x" 6)).2.1 ⟨⟨["a", "b"], Expr.litStr "x" 1, 9⟩, by decide, rfl⟩,
   (block_syntax_spec [⟨["rename_all"], .litStr "camelCase" 1, 1⟩] ⟨4, "expected one of"⟩
      (.litStr "x" 6)).2.2.2.1 [("rename_all", .litStr "camelCase" 1)] rfl
      (Or.inr ⟨"camelCase", 1, rfl, rfl⟩),
   (block_syntax_spec [] ⟨4, "expected one of"⟩ (.litStr "x" 6)).2.2.2.2.1 true 6,
   (block_syntax_spec [] ⟨4, "expected one of"⟩ (.litStr "x" 6)).2.2.2.2.2
     fun b sp h => Expr.noConfusion h⟩

/-- **C1 counterexample.** Fields `a_b` and `aB` both rename to `aB` under
`camelCase`; with both conversions succeeding, the generated mapping contains
a single entry — not one entry per field — because the later insert
overwrites the earlier one. -/
theorem aggregate_encode_collision_cex :
    astarte_aggregate RenameRule.camelCase
        [("a_b", (Except.ok 1 : Except Unit Nat)), ("aB", .ok 2)]
      = .ok [("aB", 2)]
    ∧ ([("aB", (2 : Nat))] : List (String × Nat)).length ≠ 2 :=
  ⟨rfl, by decide⟩

/-- **C1 (amended).** The generated `astarte_aggregate` processes the fields
in declaration order and returns `Ok` iff every field's conversion succeeds,
and on failure returns the first encountered conversion error (no partial
mapping is ever returned); when every conversion succeeds and the outward
names are pairwise distinct, the mapping holds exactly one entry per field,
keyed by the rename rule applied to the field's name and holding the
converted value (on a collision the later field overwrites the earlier). -/
theorem aggregate_encode_spec (rule : RenameRule) (fields : List (String × Except ε α)) :
    ((∃ m, astarte_aggregate rule fields = .ok m) ↔ ∀ p ∈ fields, ∃ v, p.2 = .ok v)
    ∧ (∀ e, firstErr fields = some e → astarte_aggregate rule fields = .error e)
    ∧ ((∀ p ∈ fields, ∃ v, p.2 = .ok v) → (outwardNames rule fields).Nodup →
        ∃ m, astarte_aggregate rule fields = .ok m
          ∧ m.length = fields.length
          ∧ ∀ p ∈ fields, ∃ v, p.2 = .ok v
              ∧ hmFind m (rule.apply_to_field p.1) = some v) := by
  refine ⟨⟨?_, ?_⟩, ?_, ?_⟩
  · rintro ⟨m, hm⟩
    cases hfe : firstErr fields with
    | none => exact (firstErr_none_iff fields).mp hfe
    | some e =>
      have herr : astarte_aggregate rule fields = Except.error e :=
        encodeSteps_error rule fields e hfe []
      rw [herr] at hm
      cases hm
  · intro hall
    exact encodeSteps_ok_exists rule fields hall []
  · intro e he
    exact encodeSteps_error rule fields e he []
  · intro hall hnd
    have hm : astarte_aggregate rule fields = Except.ok (convMap rule fields) :=
      encodeSteps_eq_append rule fields [] hall hnd fun n hn => rfl
    refine ⟨convMap rule fields, hm, convMap_length rule fields hall, ?_⟩
    intro p hp
    obtain ⟨v, hv⟩ := hall p hp
    refine ⟨v, hv, ?_⟩
    apply hmFind_of_nodup_mem
    · rw [convMap_keys rule fields hall]
      exact hnd
    · exact mem_convMap rule fields p hp v hv

/-- Witness for C1 (amended): encoding `{bar_v: "x"}` under `camelCase`
yields the one-entry mapping at key `barV`. -/
theorem aggregate_encode_spec_witness :
    ∃ m, astarte_aggregate RenameRule.camelCase
        [("bar_v", (Except.ok "x" : Except Unit String))] = .ok m
      ∧ m.length = 1
      ∧ ∀ p ∈ [("bar_v", (Except.ok "x" : Except Unit String))], ∃ v, p.2 = .ok v
          ∧ hmFind m (RenameRule.camelCase.apply_to_field p.1) = some v :=
  (aggregate_encode_spec RenameRule.camelCase [("bar_v", .ok "x")]).2.2
    (fun p hp => by cases List.mem_singleton.mp hp; exact ⟨"x", rfl⟩)
    (by decide)

end Astarte
